import Mathlib

/-!
# Verification of the design-pattern catalog application core

Shallow embedding of the catalog store, query/filter engine, bookmark
manager (including its JSON persistence slot) and selection navigation of
the repository, together with proofs of the specification's testable
properties.

Sources embedded:
* `src/types.ts` — `PatternCategory`, `DesignPattern`
* `src/App.tsx` — `filteredPatterns`, `toggleBookmark`, the bookmark
  load/save effects over the `cpp-pattern-bookmarks` storage slot
* `src/constants.tsx` — `DESIGN_PATTERNS` (the shipped catalog)
* navigation `next`/`prev` (referenced by the component tests only; the
  implementation is not part of the sources, so it is modelled from the
  spec, see the doc comments there)
-/

/-- `PatternCategory` from `src/types.ts`: a closed enum whose runtime
values are the display strings given by `display` below. -/
inductive PatternCategory where
  | CREATIONAL
  | STRUCTURAL
  | BEHAVIORAL
deriving DecidableEq, Repr

/-- The string value carried by each `PatternCategory` enum member in
`src/types.ts` (`'Creational'`, `'Structural'`, `'Behavioral'`). -/
def PatternCategory.display : PatternCategory → String
  | .CREATIONAL => "Creational"
  | .STRUCTURAL => "Structural"
  | .BEHAVIORAL => "Behavioral"

/-- `DesignPattern` from `src/types.ts`, restricted to the fields the
verified core reads.  The remaining fields (`whenToUse`, `pros`, `cons`,
`codeExample`) are opaque free-text payload: the filter, bookmark and
navigation logic never inspects them, so they are omitted from the
embedding. -/
structure DesignPattern where
  id : String
  name : String
  category : PatternCategory
  description : String
deriving DecidableEq, Repr

/-- The `activeTab` state of `src/App.tsx` (`'patterns' | 'bookmarks'`). -/
inductive ActiveTab where
  | patterns
  | bookmarks
deriving DecidableEq, Repr

/-- Scan for `needle` as a contiguous run inside a character list: it is a
prefix of some suffix.  The empty needle is found in every list. -/
def infixScan (needle : List Char) : List Char → Bool
  | [] => needle.isEmpty
  | c :: rest => needle.isPrefixOf (c :: rest) || infixScan needle rest

/-- JavaScript `hay.includes(sub)` on strings: `sub` occurs as a
contiguous substring of `hay` (the empty string occurs in every string). -/
def strIncludes (hay sub : String) : Bool :=
  infixScan sub.data hay.data

/-- JavaScript `s.toLowerCase()`: characterwise lower-casing (ASCII
simple mapping; every string the application passes through it is ASCII
text apart from characters the mapping leaves unchanged). -/
def jsToLowerCase (s : String) : String :=
  String.mk (s.data.map Char.toLower)

/-- `toggleBookmark` from `src/App.tsx` lines 34–38: the state update
applied to the previous bookmark array,
`prev.includes(id) ? prev.filter(b => b !== id) : [...prev, id]`. -/
def toggleBookmark (prev : List String) (id : String) : List String :=
  if prev.contains id then prev.filter (fun b => b ≠ id) else prev ++ [id]

/-- `filteredPatterns` from `src/App.tsx` lines 40–50, parameterised by
the catalog (the source closes over `DESIGN_PATTERNS`): restrict to
bookmarked records on the bookmarks tab, then keep records whose
lower-cased name, description or category contains the lower-cased
query. -/
def filteredPatterns (catalog : List DesignPattern) (bookmarks : List String)
    (activeTab : ActiveTab) (searchQuery : String) : List DesignPattern :=
  let source := if activeTab = ActiveTab.bookmarks
    then catalog.filter (fun p => bookmarks.contains p.id)
    else catalog
  source.filter (fun p =>
    strIncludes (jsToLowerCase p.name) (jsToLowerCase searchQuery) ||
    strIncludes (jsToLowerCase p.description) (jsToLowerCase searchQuery) ||
    strIncludes (jsToLowerCase p.category.display) (jsToLowerCase searchQuery))

/-- The spec's `scope` argument of the Query Engine (§3 ViewState):
`{AllPatterns, BookmarkedOnly}`. -/
inductive Scope where
  | AllPatterns
  | BookmarkedOnly
deriving DecidableEq, Repr

/-- The tab of `src/App.tsx` corresponding to a spec scope
(`BookmarkedOnly` is the bookmarks tab). -/
def Scope.toTab : Scope → ActiveTab
  | .AllPatterns => ActiveTab.patterns
  | .BookmarkedOnly => ActiveTab.bookmarks

/-- Reference definition transcribed from the spec's words (§4.2), for
comparison with `filteredPatterns`:  Step 1 — if `scope = BookmarkedOnly`
restrict to records whose `id ∈ bookmarkSet`, preserving catalog order,
else take the full catalog; Step 2 — retain a record iff the
case-insensitive `query` is a substring of `name`, of `description`, or of
`category`'s display text, the empty query retaining everything. -/
def specFilter (catalog : List DesignPattern) (bookmarkSet : List String)
    (scope : Scope) (query : String) : List DesignPattern :=
  let working := match scope with
    | Scope.BookmarkedOnly => catalog.filter (fun p => decide (p.id ∈ bookmarkSet))
    | Scope.AllPatterns => catalog
  if query = "" then working
  else working.filter (fun p =>
    strIncludes (jsToLowerCase p.name) (jsToLowerCase query) ||
    strIncludes (jsToLowerCase p.description) (jsToLowerCase query) ||
    strIncludes (jsToLowerCase p.category.display) (jsToLowerCase query))

/-- Index of the first occurrence of `sel` (JavaScript
`list.findIndex(y => y === sel)`, with `none` for `-1`). -/
def findIndex (l : List String) (sel : String) : Option Nat :=
  match l with
  | [] => none
  | x :: xs => if x = sel then some 0 else (findIndex xs sel).map (fun i => i + 1)

/-- Modelled from the spec (§4.4 `next`): the navigation operation is not
present in the sources (only the component test exercises the `onNext`
callback), so it is transcribed from the spec: on an empty list the
selection is unchanged; otherwise return the id immediately following the
selection, wrapping to the first element when the selection is last or not
found. -/
def next (currentList : List String) (selectedId : String) : String :=
  match currentList with
  | [] => selectedId
  | x :: xs =>
    match findIndex (x :: xs) selectedId with
    | none => x
    | some i => if i + 1 < (x :: xs).length then (x :: xs).getD (i + 1) x else x

/-- Modelled from the spec (§4.4 `prev`): symmetric to `next`; on an empty
list the selection is unchanged; otherwise return the id immediately
preceding the selection, wrapping to the last element when the selection
is first or not found. -/
def prev (currentList : List String) (selectedId : String) : String :=
  match currentList with
  | [] => selectedId
  | x :: xs =>
    match findIndex (x :: xs) selectedId with
    | none => (x :: xs).getLast (List.cons_ne_nil x xs)
    | some i =>
      if i = 0 then (x :: xs).getLast (List.cons_ne_nil x xs)
      else (x :: xs).getD (i - 1) x

/-! ## JSON persistence model

The bookmark slot `cpp-pattern-bookmarks` of the browser's local storage
holds a raw string.  `src/App.tsx` serialises with `JSON.stringify` and
deserialises with `JSON.parse`; both are platform primitives (ECMA-262 /
ECMA-404), modelled here over Unicode-scalar strings: Lean strings carry
no lone UTF-16 surrogates, so a `\uXXXX` escape naming a surrogate that
does not combine into a pair decodes to U+FFFD in the model. -/

/-- A parsed JavaScript JSON value.  Numbers keep their source numeral
text (their numeric identity is irrelevant to the verified properties). -/
inductive JsValue where
  | null
  | bool (b : Bool)
  | num (raw : String)
  | str (s : String)
  | arr (elems : List JsValue)
  | obj (members : List (String × JsValue))

mutual

/-- Structural equality of JSON values (JavaScript `===` on the
primitives; arrays and objects compared elementwise, as the model's value
identity). -/
def JsValue.beq : JsValue → JsValue → Bool
  | .null, .null => true
  | .bool a, .bool b => a == b
  | .num a, .num b => a == b
  | .str a, .str b => a == b
  | .arr a, .arr b => JsValue.beqList a b
  | .obj a, .obj b => JsValue.beqMembers a b
  | _, _ => false

/-- Elementwise equality of JSON arrays. -/
def JsValue.beqList : List JsValue → List JsValue → Bool
  | [], [] => true
  | a :: as, b :: bs => JsValue.beq a b && JsValue.beqList as bs
  | _, _ => false

/-- Memberwise equality of JSON objects. -/
def JsValue.beqMembers :
    List (String × JsValue) → List (String × JsValue) → Bool
  | [], [] => true
  | (k, v) :: as, (k2, v2) :: bs =>
    k == k2 && JsValue.beq v v2 && JsValue.beqMembers as bs
  | _, _ => false

end

instance : BEq JsValue := ⟨JsValue.beq⟩

/-- Lower-case hex digit for a value below 16, as `JSON.stringify` emits
in `\u00XX` escapes. -/
def hexDigitChar (n : Nat) : Char :=
  if n < 10 then Char.ofNat (n + '0'.toNat) else Char.ofNat (n - 10 + 'a'.toNat)

/-- `QuoteJSONString` escaping of one character (ECMA-262): quote and
backslash are escaped, the named control characters use their short
escapes, other control characters use `\u00XX`, and everything else is
emitted literally. -/
def escapeChar (c : Char) : List Char :=
  if c = '"' then ['\\', '"']
  else if c = '\\' then ['\\', '\\']
  else if c = '\x08' then ['\\', 'b']
  else if c = '\x0c' then ['\\', 'f']
  else if c = '\n' then ['\\', 'n']
  else if c = '\r' then ['\\', 'r']
  else if c = '\t' then ['\\', 't']
  else if c.toNat < 0x20 then
    ['\\', 'u', '0', '0', hexDigitChar (c.toNat / 16), hexDigitChar (c.toNat % 16)]
  else [c]

/-- `JSON.stringify` of one string: a quoted, escaped literal. -/
def quoteJson (s : String) : List Char :=
  '"' :: s.data.flatMap escapeChar ++ ['"']

/-- The comma-separated element list of a stringified string array. -/
def jsonArrBody : List String → List Char
  | [] => []
  | [s] => quoteJson s
  | s :: rest => quoteJson s ++ ',' :: jsonArrBody rest

/-- `JSON.stringify` of an array of strings, as written by the save
effect of `src/App.tsx` line 31: `["a","b",...]` with no whitespace. -/
def jsonStringifyStrArr (bookmarks : List String) : String :=
  String.mk ('[' :: jsonArrBody bookmarks ++ [']'])

/-- JSON insignificant whitespace (ECMA-404). -/
def isJsonWs (c : Char) : Bool :=
  c = ' ' || c = '\t' || c = '\n' || c = '\r'

/-- Drop leading insignificant whitespace. -/
def skipWs (cs : List Char) : List Char :=
  cs.dropWhile isJsonWs

/-- Value of a hex digit, or `none`. -/
def hexVal (c : Char) : Option Nat :=
  if '0' ≤ c ∧ c ≤ '9' then some (c.toNat - '0'.toNat)
  else if 'a' ≤ c ∧ c ≤ 'f' then some (c.toNat - 'a'.toNat + 10)
  else if 'A' ≤ c ∧ c ≤ 'F' then some (c.toNat - 'A'.toNat + 10)
  else none

/-- Decode a `\uXXXX` code unit already read as a number, combining a
high surrogate with a following `\uYYYY` low surrogate into one scalar.
A surrogate that does not pair decodes to U+FFFD (see the model note
above). -/
def decodeUnit (u : Nat) (rest : List Char) : Char × List Char :=
  if u < 0xD800 ∨ 0xDFFF < u then
    (Char.ofNat u, rest)
  else if u ≤ 0xDBFF then
    match rest with
    | '\\' :: 'u' :: k1 :: k2 :: k3 :: k4 :: rest2 =>
      match hexVal k1, hexVal k2, hexVal k3, hexVal k4 with
      | some v1, some v2, some v3, some v4 =>
        let v := ((v1 * 16 + v2) * 16 + v3) * 16 + v4
        if 0xDC00 ≤ v ∧ v ≤ 0xDFFF then
          (Char.ofNat (0x10000 + (u - 0xD800) * 0x400 + (v - 0xDC00)),
           rest2)
        else (Char.ofNat 0xFFFD, rest)
      | _, _, _, _ => (Char.ofNat 0xFFFD, rest)
    | _ => (Char.ofNat 0xFFFD, rest)
  else (Char.ofNat 0xFFFD, rest)

/-- Parse the body of a JSON string literal (the opening quote already
consumed), returning the decoded characters and the input after the
closing quote.  Raw control characters are rejected, as `JSON.parse`
does.  `fuel` bounds recursion depth; one unit is spent per decoded
character. -/
def parseStringBody : Nat → List Char → Option (List Char × List Char)
  | 0, _ => none
  | _ + 1, [] => none
  | fuel + 1, c :: rest =>
    if c = '"' then some ([], rest)
    else if c = '\\' then
      match rest with
      | [] => none
      | e :: rest2 =>
        if e = '"' then
          (parseStringBody fuel rest2).map (fun p => ('"' :: p.1, p.2))
        else if e = '\\' then
          (parseStringBody fuel rest2).map (fun p => ('\\' :: p.1, p.2))
        else if e = '/' then
          (parseStringBody fuel rest2).map (fun p => ('/' :: p.1, p.2))
        else if e = 'b' then
          (parseStringBody fuel rest2).map (fun p => ('\x08' :: p.1, p.2))
        else if e = 'f' then
          (parseStringBody fuel rest2).map (fun p => ('\x0c' :: p.1, p.2))
        else if e = 'n' then
          (parseStringBody fuel rest2).map (fun p => ('\n' :: p.1, p.2))
        else if e = 'r' then
          (parseStringBody fuel rest2).map (fun p => ('\r' :: p.1, p.2))
        else if e = 't' then
          (parseStringBody fuel rest2).map (fun p => ('\t' :: p.1, p.2))
        else if e = 'u' then
          match rest2 with
          | h1 :: h2 :: h3 :: h4 :: rest3 =>
            match hexVal h1, hexVal h2, hexVal h3, hexVal h4 with
            | some v1, some v2, some v3, some v4 =>
              let u := ((v1 * 16 + v2) * 16 + v3) * 16 + v4
              let d := decodeUnit u rest3
              (parseStringBody fuel d.2).map (fun p => (d.1 :: p.1, p.2))
            | _, _, _, _ => none
          | _ => none
        else none
    else if c.toNat < 0x20 then none
    else (parseStringBody fuel rest).map (fun p => (c :: p.1, p.2))

/-- Take a maximal run of decimal digits. -/
def takeDigits (cs : List Char) : List Char × List Char :=
  (cs.takeWhile Char.isDigit, cs.dropWhile Char.isDigit)

/-- Parse a JSON numeral (`-?(0|[1-9][0-9]*)(\.[0-9]+)?([eE][+-]?[0-9]+)?`),
returning the raw numeral text. -/
def parseNumber (cs : List Char) : Option (String × List Char) := do
  let (sign, cs1) := match cs with
    | '-' :: t => (['-'], t)
    | t => (([] : List Char), t)
  let (intPart, cs2) ← match cs1 with
    | '0' :: t => some (['0'], t)
    | c :: _ =>
      if c.isDigit then
        let (ds, t) := takeDigits cs1
        some (ds, t)
      else none
    | [] => none
  let (frac, cs3) := match cs2 with
    | '.' :: t =>
      let (ds, t2) := takeDigits t
      if ds.isEmpty then (([] : List Char), cs2) else ('.' :: ds, t2)
    | _ => (([] : List Char), cs2)
  -- a dot not followed by a digit is a syntax error, not a shorter numeral
  if cs3.head? = some '.' then none
  else
    let (expPart, cs4) := match cs3 with
      | e :: t =>
        if e = 'e' ∨ e = 'E' then
          let (es, t2) := match t with
            | '+' :: t3 => (['+'], t3)
            | '-' :: t3 => (['-'], t3)
            | t3 => (([] : List Char), t3)
          let (ds, t4) := takeDigits t2
          if ds.isEmpty then (([] : List Char), cs3) else (e :: (es ++ ds), t4)
        else (([] : List Char), cs3)
      | [] => (([] : List Char), cs3)
    if (cs4.head?.map (fun c => c == 'e' || c == 'E')).getD false then none
    else some (String.mk (sign ++ intPart ++ frac ++ expPart), cs4)

mutual

/-- Parse one JSON value (ECMA-404 grammar), spending one fuel unit per
nesting level. -/
def parseValue : Nat → List Char → Option (JsValue × List Char)
  | 0, _ => none
  | fuel + 1, cs =>
    match skipWs cs with
    | 'n' :: 'u' :: 'l' :: 'l' :: rest => some (.null, rest)
    | 't' :: 'r' :: 'u' :: 'e' :: rest => some (.bool true, rest)
    | 'f' :: 'a' :: 'l' :: 's' :: 'e' :: rest => some (.bool false, rest)
    | '"' :: rest =>
      (parseStringBody (rest.length + 1) rest).map
        (fun p => (.str (String.mk p.1), p.2))
    | '[' :: rest =>
      let r := skipWs rest
      if r.head? = some ']' then some (.arr [], r.tail)
      else (parseElems fuel r).map (fun p => (.arr p.1, p.2))
    | '{' :: rest =>
      let r := skipWs rest
      if r.head? = some '}' then some (.obj [], r.tail)
      else (parseMembers fuel r).map (fun p => (.obj p.1, p.2))
    | c :: rest =>
      if c = '-' ∨ c.isDigit then
        (parseNumber (c :: rest)).map (fun p => (.num p.1, p.2))
      else none
    | [] => none

/-- Parse the elements of a non-empty JSON array, up to and including the
closing bracket. -/
def parseElems : Nat → List Char → Option (List JsValue × List Char)
  | 0, _ => none
  | fuel + 1, cs => do
    let (v, rest) ← parseValue fuel cs
    match skipWs rest with
    | ',' :: rest2 =>
      (parseElems fuel rest2).map (fun p => (v :: p.1, p.2))
    | ']' :: rest2 => some ([v], rest2)
    | _ => none

/-- Parse the members of a non-empty JSON object, up to and including the
closing brace. -/
def parseMembers : Nat → List Char → Option (List (String × JsValue) × List Char)
  | 0, _ => none
  | fuel + 1, cs =>
    match skipWs cs with
    | '"' :: rest => do
      let (key, rest2) ← parseStringBody (rest.length + 1) rest
      match skipWs rest2 with
      | ':' :: rest3 => do
        let (v, rest4) ← parseValue fuel rest3
        match skipWs rest4 with
        | ',' :: rest5 =>
          (parseMembers fuel rest5).map
            (fun p => ((String.mk key, v) :: p.1, p.2))
        | '}' :: rest5 => some ([(String.mk key, v)], rest5)
        | _ => none
      | _ => none
    | _ => none

end

/-- `JSON.parse`: parse one value and require only trailing whitespace
after it.  The fuel `length + 1` dominates any possible nesting depth. -/
def jsonParse (s : String) : Option JsValue :=
  match parseValue (s.data.length + 1) s.data with
  | some (v, rest) => if (skipWs rest).isEmpty then some v else none
  | none => none

/-- The bookmark state established by the mount effect of `src/App.tsx`
lines 18–27, as a function of the storage slot's content: the state
starts as `[]`; when the slot is present and truthy (a non-empty string),
`JSON.parse` of it is installed wholesale, a parse error leaving the
initial empty array in place.  The parsed value is not validated to be an
array of strings. -/
def loadBookmarks (slot : Option String) : JsValue :=
  match slot with
  | none => .arr []
  | some saved =>
    if saved = "" then .arr []
    else
      match jsonParse saved with
      | some v => v
      | none => .arr []

/-- The save effect of `src/App.tsx` lines 30–32: write the serialised
bookmark array over the slot, wholesale. -/
def persistBookmarks (bookmarks : List String) : Option String :=
  some (jsonStringifyStrArr bookmarks)

/-- One toggle interaction of `src/App.tsx` followed by the save effect.
`writeSucceeds` says whether the storage write succeeds or throws (e.g.
quota); the state update has already committed when the effect runs, so
the returned in-memory array is the toggled one either way.  The third
component reports whether persistence succeeded. -/
def appToggleStep (bookmarks : List String) (slot : Option String)
    (id : String) (writeSucceeds : Bool) :
    List String × Option String × Bool :=
  let b := toggleBookmark bookmarks id
  if writeSucceeds then (b, persistBookmarks b, true) else (b, slot, false)

/-- JavaScript `value.includes(x)` for a string argument `x`, as invoked
on the loaded bookmark value by `src/App.tsx` (`bookmarks.includes(id)`):
defined on arrays (membership) and strings (substring), a `TypeError`
(`none`) on every other value. -/
def jsIncludes (v : JsValue) (x : String) : Option Bool :=
  match v with
  | .arr elems => some (elems.contains (.str x))
  | .str s => some (strIncludes s x)
  | _ => none

example : jsonParse "true" = some (.bool true) := rfl
example : jsonParse "" = none := rfl
example : jsonParse "not json" = none := rfl
example : jsonParse "[\"a\",\"b\"]" =
    some (.arr [.str "a", .str "b"]) := rfl
example : jsonParse "[]" = some (.arr []) := rfl
example : jsonParse "\x7b\"a\": 5\x7d" = some (.obj [("a", .num "5")]) := rfl
example : jsonParse "[1,2]" = some (.arr [.num "1", .num "2"]) := rfl
example : jsonParse "05" = none := rfl
example : jsonParse " [ \"x\" ] " = some (.arr [.str "x"]) := rfl
example : jsonParse "[\"a\"" = none := rfl
example : jsonParse "\"a\\u0041\"" = some (.str "aA") := rfl
example : jsonStringifyStrArr [] = "[]" := by decide
example : jsonStringifyStrArr ["a", "b"] = "[\"a\",\"b\"]" := by decide
example : loadBookmarks (persistBookmarks ["a", "b"]) =
    .arr [.str "a", .str "b"] := rfl
example : loadBookmarks (some "true") = .bool true := rfl

example : toggleBookmark ["a", "b"] "a" = ["b"] := by decide
example : toggleBookmark ["b"] "a" = ["b", "a"] := by decide
example : strIncludes "abstract factory" "facto" = true := by decide
example : strIncludes "singleton" "facto" = false := by decide
example : strIncludes "x" "" = true := by decide
example : next ["a", "b", "c"] "c" = "a" := by decide
example : next ["a", "b", "c"] "a" = "b" := by decide
example : prev ["a", "b", "c"] "a" = "c" := by decide
example : prev ["a", "b", "c"] "c" = "b" := by decide
example : next [] "q" = "q" := by decide
/-- The shipped catalog `DESIGN_PATTERNS` of `src/constants.tsx`
(26 records, in source order), projected to the fields the core reads. -/
def DESIGN_PATTERNS : List DesignPattern := [
  { id := "singleton",
    name := "Singleton",
    category := .CREATIONAL,
    description := "Ensures a class has only one instance and provides a global point of access to it." },
  { id := "lazy-init",
    name := "Lazy Initialization",
    category := .CREATIONAL,
    description := "Delays the creation of an object, the calculation of a value, or some other expensive process until the first time it is needed." },
  { id := "pimpl",
    name := "Pimpl (Pointer to Impl)",
    category := .STRUCTURAL,
    description := "Removes implementation details of a class from its object representation by placing them in a separate class, accessed via an opaque pointer." },
  { id := "interpreter",
    name := "Interpreter",
    category := .BEHAVIORAL,
    description := "Specifies how to evaluate sentences in a language. It defines a grammatical representation for a language along with an interpreter to interpret the sentences." },
  { id := "object-pool",
    name := "Object Pool",
    category := .CREATIONAL,
    description := "Uses a set of initialized objects kept in a ready-to-use \"pool\" rather than destroying and re-creating them on demand." },
  { id := "prototype",
    name := "Prototype",
    category := .CREATIONAL,
    description := "Lets you copy existing objects without making your code dependent on their classes." },
  { id := "abstract-factory",
    name := "Abstract Factory",
    category := .CREATIONAL,
    description := "Lets you produce families of related objects without specifying their concrete classes." },
  { id := "builder",
    name := "Builder",
    category := .CREATIONAL,
    description := "Lets you construct complex objects step by step. The pattern allows you to produce different types and representations of an object using the same construction code." },
  { id := "factory-method",
    name := "Factory Method",
    category := .CREATIONAL,
    description := "Provides an interface for creating objects in a superclass, but allows subclasses to alter the type of objects that will be created." },
  { id := "bridge",
    name := "Bridge",
    category := .STRUCTURAL,
    description := "Lets you split a large class or a set of closely related classes into two separate hierarchies—abstraction and implementation—which can be developed independently of each other." },
  { id := "composite",
    name := "Composite",
    category := .STRUCTURAL,
    description := "Lets you compose objects into tree structures and then work with these structures as if they were individual objects." },
  { id := "facade",
    name := "Facade",
    category := .STRUCTURAL,
    description := "Provides a simplified interface to a library, a framework, or any other complex set of classes." },
  { id := "flyweight",
    name := "Flyweight",
    category := .STRUCTURAL,
    description := "Lets you fit more objects into the available amount of RAM by sharing common parts of state between multiple objects instead of keeping all of the data in each object." },
  { id := "proxy",
    name := "Proxy",
    category := .STRUCTURAL,
    description := "Lets you provide a substitute or placeholder for another object. A proxy controls access to the original object, allowing you to perform something either before or after the request gets through to the original object." },
  { id := "chain-of-responsibility",
    name := "Chain of Responsibility",
    category := .BEHAVIORAL,
    description := "Lets you pass requests along a chain of handlers. Upon receiving a request, each handler decides either to process the request or to pass it to the next handler in the chain." },
  { id := "mediator",
    name := "Mediator",
    category := .BEHAVIORAL,
    description := "Lets you reduce chaotic dependencies between objects. The pattern restricts direct communications between the objects and forces them to collaborate only via a mediator object." },
  { id := "memento",
    name := "Memento",
    category := .BEHAVIORAL,
    description := "Lets you save and restore the previous state of an object without revealing the details of its implementation." },
  { id := "observer",
    name := "Observer",
    category := .BEHAVIORAL,
    description := "Defines a subscription mechanism to notify multiple objects about any events that happen to the object they\x27re observing." },
  { id := "state",
    name := "State",
    category := .BEHAVIORAL,
    description := "Lets an object alter its behavior when its internal state changes. It appears as if the object changed its class." },
  { id := "strategy",
    name := "Strategy",
    category := .BEHAVIORAL,
    description := "Defines a family of algorithms, encapsulates each one, and makes them interchangeable." },
  { id := "command",
    name := "Command",
    category := .BEHAVIORAL,
    description := "Turns a request into a stand-alone object that contains all information about the request. This transformation lets you pass requests as a method arguments, delay or queue a request\x27s execution, and support undoable operations." },
  { id := "template-method",
    name := "Template Method",
    category := .BEHAVIORAL,
    description := "Defines the skeleton of an algorithm in the superclass but lets subclasses override specific steps of the algorithm without changing its structure." },
  { id := "visitor",
    name := "Visitor",
    category := .BEHAVIORAL,
    description := "Lets you separate algorithms from the objects on which they operate." },
  { id := "iterator",
    name := "Iterator",
    category := .BEHAVIORAL,
    description := "Lets you traverse elements of a collection without exposing its underlying representation (list, stack, tree, etc.)." },
  { id := "decorator",
    name := "Decorator",
    category := .STRUCTURAL,
    description := "Lets you attach new behaviors to objects by placing these objects inside special wrapper objects that contain the behaviors." },
  { id := "adapter",
    name := "Adapter",
    category := .STRUCTURAL,
    description := "Allows objects with incompatible interfaces to collaborate." }
]

example : DESIGN_PATTERNS.length = 26 := by decide
example : (filteredPatterns DESIGN_PATTERNS [] ActiveTab.patterns "facto").map
    (fun p => p.id) = ["abstract-factory", "factory-method"] := by decide
example : (filteredPatterns DESIGN_PATTERNS [] ActiveTab.patterns "FACTO").map
    (fun p => p.id) = ["abstract-factory", "factory-method"] := by decide
example : (DESIGN_PATTERNS.map (fun p => p.id)).Nodup := by decide

/-! ## Supporting lemmas -/

/-- The empty needle is found in every character list. -/
theorem infixScan_nil (cs : List Char) : infixScan [] cs = true := by
  induction cs with
  | nil => rfl
  | cons c rest ih => simp [infixScan, ih, List.isPrefixOf]

/-- JavaScript `includes` with the empty search string is always true. -/
theorem strIncludes_empty (hay : String) : strIncludes hay "" = true :=
  infixScan_nil hay.data

/-- Lower-casing the empty string gives the empty string. -/
theorem jsToLowerCase_empty : jsToLowerCase "" = "" := rfl

/-- `Array.includes` (modelled by `List.contains`) agrees with decidable
set membership. -/
theorem contains_eq_decide_mem (l : List String) (a : String) :
    l.contains a = decide (a ∈ l) := by
  induction l with
  | nil => rfl
  | cons b t ih => simp [List.contains_cons] at *

/-! ## Claim theorems: filtering -/

/-- C1.  The application's filter computation agrees with the spec's
two-step reference definition for every catalog, bookmark set, scope and
query: scope restriction first, then the case-insensitive three-field
substring match with the empty query retaining everything. -/
theorem filteredPatterns_eq_specFilter (catalog : List DesignPattern)
    (bookmarks : List String) (scope : Scope) (query : String) :
    filteredPatterns catalog bookmarks scope.toTab query =
      specFilter catalog bookmarks scope query := by
  have hsrc :
      ∀ source : List DesignPattern,
        source.filter (fun p =>
          strIncludes (jsToLowerCase p.name) (jsToLowerCase query) ||
          strIncludes (jsToLowerCase p.description) (jsToLowerCase query) ||
          strIncludes (jsToLowerCase p.category.display) (jsToLowerCase query)) =
        if query = "" then source
        else source.filter (fun p =>
          strIncludes (jsToLowerCase p.name) (jsToLowerCase query) ||
          strIncludes (jsToLowerCase p.description) (jsToLowerCase query) ||
          strIncludes (jsToLowerCase p.category.display) (jsToLowerCase query)) := by
    intro source
    by_cases hq : query = ""
    · subst hq
      simp [List.filter_eq_self, jsToLowerCase_empty, strIncludes_empty]
    · simp [hq]
  cases scope with
  | AllPatterns =>
    simp only [filteredPatterns, specFilter, Scope.toTab]
    simpa using hsrc catalog
  | BookmarkedOnly =>
    simp only [filteredPatterns, specFilter, Scope.toTab]
    have hrestrict :
        catalog.filter (fun p => bookmarks.contains p.id) =
          catalog.filter (fun p => decide (p.id ∈ bookmarks)) :=
      List.filter_congr (fun p _ => contains_eq_decide_mem bookmarks p.id)
    simp only [reduceCtorEq, if_true, if_false]
    rw [hrestrict]
    simpa using hsrc (catalog.filter (fun p => decide (p.id ∈ bookmarks)))

/-- C2.  The filter output is a subsequence of the catalog — every output
record occurs in the catalog and relative order is preserved; filtering
never reorders. -/
theorem filteredPatterns_sublist (catalog : List DesignPattern)
    (bookmarks : List String) (activeTab : ActiveTab) (searchQuery : String) :
    List.Sublist (filteredPatterns catalog bookmarks activeTab searchQuery)
        catalog ∧
      ∀ p ∈ filteredPatterns catalog bookmarks activeTab searchQuery,
        p ∈ catalog := by
  have hsub :
      List.Sublist (filteredPatterns catalog bookmarks activeTab searchQuery)
        catalog := by
    unfold filteredPatterns
    cases activeTab with
    | patterns =>
      simp only [reduceCtorEq, if_false]
      exact List.filter_sublist catalog
    | bookmarks =>
      simp only [reduceCtorEq, if_true, if_false]
      exact (List.filter_sublist _).trans (List.filter_sublist catalog)
  exact ⟨hsub, fun p hp => hsub.subset hp⟩

/-! ## Claim theorems: bookmark toggling -/

/-- C4.  Toggling is an involution on the bookmark set (membership after
two toggles of the same id is unchanged), removes the id when present,
and appends it when absent; it is total for every list and id. -/
theorem toggleBookmark_involution (S : List String) (id : String) :
    (∀ x, x ∈ toggleBookmark (toggleBookmark S id) id ↔ x ∈ S) ∧
      (id ∈ S → toggleBookmark S id = S.filter (fun b => b ≠ id)) ∧
      (id ∉ S → toggleBookmark S id = S ++ [id]) := by
  refine ⟨?_, ?_, ?_⟩
  · intro x
    by_cases hid : id ∈ S
    · have h1 : toggleBookmark S id = S.filter (fun b => b ≠ id) := by
        simp [toggleBookmark, contains_eq_decide_mem, hid]
      have hnotin : id ∉ S.filter (fun b => b ≠ id) := by
        simp [List.mem_filter]
      have h2 : toggleBookmark (toggleBookmark S id) id =
          S.filter (fun b => b ≠ id) ++ [id] := by
        rw [h1]
        simp [toggleBookmark, contains_eq_decide_mem, hnotin]
      rw [h2]
      simp only [List.mem_append, List.mem_filter, List.mem_singleton]
      constructor
      · rintro (⟨hx, _⟩ | rfl)
        · exact hx
        · exact hid
      · intro hx
        by_cases hxid : x = id
        · exact Or.inr hxid
        · exact Or.inl ⟨hx, by simpa using hxid⟩
    · have h1 : toggleBookmark S id = S ++ [id] := by
        simp [toggleBookmark, contains_eq_decide_mem, hid]
      have h2 : toggleBookmark (toggleBookmark S id) id = S := by
        rw [h1]
        have hmem : id ∈ S ++ [id] := by simp
        have hne : ∀ a ∈ S, ¬a = id := fun a ha h => hid (h ▸ ha)
        have : (S ++ [id]).filter (fun b => b ≠ id) = S := by
          rw [List.filter_append]
          have hS : S.filter (fun b => b ≠ id) = S :=
            List.filter_eq_self.mpr (fun b hb => by
              simp only [decide_eq_true_eq]
              exact hne b hb)
          simp only [hS, List.filter_cons, List.filter_nil]
          simp
        have hcond : (S ++ [id]).contains id = true := by
          simp [contains_eq_decide_mem, hmem]
        rw [toggleBookmark, hcond]
        simpa using this
      rw [h2]
  · intro hid
    simp [toggleBookmark, contains_eq_decide_mem, hid]
  · intro hid
    simp [toggleBookmark, contains_eq_decide_mem, hid]

/-- Witness for C4 at a concrete input: toggling `"a"` twice on
`["a", "b"]` preserves membership, and single toggles remove/append. -/
theorem toggleBookmark_involution_witness :
    ("a" ∈ toggleBookmark (toggleBookmark ["a", "b"] "a") "a" ∧
      "b" ∈ toggleBookmark (toggleBookmark ["a", "b"] "a") "a") ∧
      toggleBookmark ["a", "b"] "a" = ["a", "b"].filter (fun b => b ≠ "a") ∧
      toggleBookmark ["b"] "a" = ["b"] ++ ["a"] := by
  refine ⟨⟨?_, ?_⟩, ?_, ?_⟩
  · exact ((toggleBookmark_involution ["a", "b"] "a").1 "a").mpr (by decide)
  · exact ((toggleBookmark_involution ["a", "b"] "a").1 "b").mpr (by decide)
  · exact (toggleBookmark_involution ["a", "b"] "a").2.1 (by decide)
  · exact (toggleBookmark_involution ["b"] "a").2.2 (by decide)

/-! ## Claim theorems: persistence state separation -/

/-- C6.  One toggle followed by the save effect: the in-memory array is
the toggled one whether or not the storage write succeeds, and the
outcome flag faithfully reports the write's success. -/
theorem appToggleStep_memory_independent (bookmarks : List String)
    (slot : Option String) (id : String) (writeSucceeds : Bool) :
    (appToggleStep bookmarks slot id writeSucceeds).1 =
        toggleBookmark bookmarks id ∧
      (appToggleStep bookmarks slot id writeSucceeds).2.2 = writeSucceeds := by
  cases writeSucceeds <;> simp [appToggleStep]

/-! ## Claim theorems: navigation -/

/-- C8.  On an empty list, `next` and `prev` leave the selection
unchanged for every selection value, and are total (no error). -/
theorem nav_empty_noop (selectedId : String) :
    next [] selectedId = selectedId ∧ prev [] selectedId = selectedId :=
  ⟨rfl, rfl⟩

/-! ## Claim theorems: the shipped catalog -/

/-- C9.  Filtering the shipped catalog with scope AllPatterns and query
`"facto"` — and equally `"FACTO"` — returns exactly the records
`abstract-factory` and `factory-method`, in catalog order. -/
theorem shipped_catalog_facto_query :
    (filteredPatterns DESIGN_PATTERNS [] ActiveTab.patterns "facto").map
        (fun p => p.id) = ["abstract-factory", "factory-method"] ∧
      (filteredPatterns DESIGN_PATTERNS [] ActiveTab.patterns "FACTO").map
        (fun p => p.id) = ["abstract-factory", "factory-method"] := by
  constructor <;> decide

/-- C10.  Every record of the shipped catalog has a non-empty id, and no
two records share an id. -/
theorem shipped_catalog_ids_unique :
    (∀ p ∈ DESIGN_PATTERNS, p.id ≠ "") ∧
      (DESIGN_PATTERNS.map (fun p => p.id)).Nodup := by
  constructor <;> decide

/-! ## JSON round-trip lemmas -/

/-- Dropping whitespace leaves a non-whitespace-headed list unchanged. -/
theorem skipWs_cons_not_ws (c : Char) (cs : List Char) (h : isJsonWs c = false) :
    skipWs (c :: cs) = c :: cs := by
  simp [skipWs, List.dropWhile_cons, h]

/-- `hexVal` inverts `hexDigitChar` on hex-digit values. -/
theorem hexVal_hexDigitChar : ∀ n < 16, hexVal (hexDigitChar n) = some n := by
  decide

/-- Every character escapes to at least one character. -/
theorem escapeChar_length_pos (c : Char) : 0 < (escapeChar c).length := by
  unfold escapeChar
  repeat' split
  all_goals simp

/-- Escaping does not shorten a string. -/
theorem length_le_length_flatMap_escapeChar (s : List Char) :
    s.length ≤ (s.flatMap escapeChar).length := by
  induction s with
  | nil => simp
  | cons c t ih =>
    simp only [List.flatMap_cons, List.length_append, List.length_cons]
    have := escapeChar_length_pos c
    omega

/-- Unfolding: a parsed `\"` escape. -/
theorem psb_esc_quote (f : Nat) (L : List Char) :
    parseStringBody (f + 1) ('\\' :: '"' :: L) =
      (parseStringBody f L).map (fun p => ('"' :: p.1, p.2)) := rfl

/-- Unfolding: a parsed `\\` escape. -/
theorem psb_esc_backslash (f : Nat) (L : List Char) :
    parseStringBody (f + 1) ('\\' :: '\\' :: L) =
      (parseStringBody f L).map (fun p => ('\\' :: p.1, p.2)) := rfl

/-- Unfolding: a parsed `\b` escape. -/
theorem psb_esc_b (f : Nat) (L : List Char) :
    parseStringBody (f + 1) ('\\' :: 'b' :: L) =
      (parseStringBody f L).map (fun p => ('\x08' :: p.1, p.2)) := rfl

/-- Unfolding: a parsed `\f` escape. -/
theorem psb_esc_f (f : Nat) (L : List Char) :
    parseStringBody (f + 1) ('\\' :: 'f' :: L) =
      (parseStringBody f L).map (fun p => ('\x0c' :: p.1, p.2)) := rfl

/-- Unfolding: a parsed `\n` escape. -/
theorem psb_esc_n (f : Nat) (L : List Char) :
    parseStringBody (f + 1) ('\\' :: 'n' :: L) =
      (parseStringBody f L).map (fun p => ('\n' :: p.1, p.2)) := rfl

/-- Unfolding: a parsed `\r` escape. -/
theorem psb_esc_r (f : Nat) (L : List Char) :
    parseStringBody (f + 1) ('\\' :: 'r' :: L) =
      (parseStringBody f L).map (fun p => ('\r' :: p.1, p.2)) := rfl

/-- Unfolding: a parsed `\t` escape. -/
theorem psb_esc_t (f : Nat) (L : List Char) :
    parseStringBody (f + 1) ('\\' :: 't' :: L) =
      (parseStringBody f L).map (fun p => ('\t' :: p.1, p.2)) := rfl

/-- Unfolding: a literal (unescaped, non-control) character. -/
theorem psb_lit (f : Nat) (c : Char) (L : List Char) (h1 : c ≠ '"')
    (h2 : c ≠ '\\') (h3 : ¬c.toNat < 0x20) :
    parseStringBody (f + 1) (c :: L) =
      (parseStringBody f L).map (fun p => (c :: p.1, p.2)) := by
  simp [parseStringBody, h1, h2, h3]

/-- Unfolding: a parsed `\u00XX` escape of a control character, as
`escapeChar` emits it. -/
theorem psb_esc_u (f : Nat) (c : Char) (L : List Char) (h : c.toNat < 0x20) :
    parseStringBody (f + 1)
        ('\\' :: 'u' :: '0' :: '0' ::
          hexDigitChar (c.toNat / 16) :: hexDigitChar (c.toNat % 16) :: L) =
      (parseStringBody f L).map (fun p => (c :: p.1, p.2)) := by
  have hdiv : c.toNat / 16 < 16 := by omega
  have hmod : c.toNat % 16 < 16 := by omega
  have h1 := hexVal_hexDigitChar (c.toNat / 16) hdiv
  have h2 := hexVal_hexDigitChar (c.toNat % 16) hmod
  have h0 : hexVal '0' = some 0 := by decide
  have harith : ((0 * 16 + 0) * 16 + c.toNat / 16) * 16 + c.toNat % 16 =
      c.toNat := by
    have := Nat.div_add_mod c.toNat 16
    omega
  have hlow : c.toNat < 0xD800 ∨ 0xDFFF < c.toNat := Or.inl (by omega)
  simp only [parseStringBody, h0, h1, h2]
  norm_num only
  rw [harith]
  simp [decodeUnit, hlow, Char.ofNat_toNat]

/-- Parsing inverts escaping: the string body parser consumes the escaped
image of `s`, stops at the closing quote and returns `s` exactly. -/
theorem parseStringBody_escape :
    ∀ (s : List Char) (fuel : Nat) (rest : List Char), s.length < fuel →
      parseStringBody fuel (s.flatMap escapeChar ++ '"' :: rest) =
        some (s, rest) := by
  intro s
  induction s with
  | nil =>
    intro fuel rest hf
    cases fuel with
    | zero => omega
    | succ f => simp [parseStringBody]
  | cons c t ih =>
    intro fuel rest hf
    cases fuel with
    | zero => omega
    | succ f =>
      have hft : t.length < f := by
        simp only [List.length_cons] at hf
        omega
      have hrec := ih f rest hft
      simp only [List.flatMap_cons, List.append_assoc]
      by_cases h1 : c = '"'
      · subst h1
        rw [show escapeChar '"' = ['\\', '"'] from rfl]
        simp only [List.cons_append, List.nil_append]
        rw [psb_esc_quote, hrec]
        rfl
      · by_cases h2 : c = '\\'
        · subst h2
          rw [show escapeChar '\\' = ['\\', '\\'] from rfl]
          simp only [List.cons_append, List.nil_append]
          rw [psb_esc_backslash, hrec]
          rfl
        · by_cases h3 : c = '\x08'
          · subst h3
            rw [show escapeChar '\x08' = ['\\', 'b'] from rfl]
            simp only [List.cons_append, List.nil_append]
            rw [psb_esc_b, hrec]
            rfl
          · by_cases h4 : c = '\x0c'
            · subst h4
              rw [show escapeChar '\x0c' = ['\\', 'f'] from rfl]
              simp only [List.cons_append, List.nil_append]
              rw [psb_esc_f, hrec]
              rfl
            · by_cases h5 : c = '\n'
              · subst h5
                rw [show escapeChar '\n' = ['\\', 'n'] from rfl]
                simp only [List.cons_append, List.nil_append]
                rw [psb_esc_n, hrec]
                rfl
              · by_cases h6 : c = '\r'
                · subst h6
                  rw [show escapeChar '\r' = ['\\', 'r'] from rfl]
                  simp only [List.cons_append, List.nil_append]
                  rw [psb_esc_r, hrec]
                  rfl
                · by_cases h7 : c = '\t'
                  · subst h7
                    rw [show escapeChar '\t' = ['\\', 't'] from rfl]
                    simp only [List.cons_append, List.nil_append]
                    rw [psb_esc_t, hrec]
                    rfl
                  · by_cases h8 : c.toNat < 0x20
                    · have hesc : escapeChar c =
                          ['\\', 'u', '0', '0', hexDigitChar (c.toNat / 16),
                            hexDigitChar (c.toNat % 16)] := by
                        unfold escapeChar
                        simp [h1, h2, h3, h4, h5, h6, h7, h8]
                      rw [hesc]
                      simp only [List.cons_append, List.nil_append]
                      rw [psb_esc_u f c _ h8, hrec]
                      rfl
                    · have hesc : escapeChar c = [c] := by
                        unfold escapeChar
                        simp [h1, h2, h3, h4, h5, h6, h7, h8]
                      rw [hesc]
                      simp only [List.cons_append, List.nil_append]
                      rw [psb_lit f c _ h1 h2 h8, hrec]
                      rfl

/-- Parsing a stringified string literal yields exactly that string. -/
theorem parseValue_quoted (s : String) (fuel : Nat) (L : List Char)
    (hf : 0 < fuel) :
    parseValue fuel (quoteJson s ++ L) = some (.str s, L) := by
  cases fuel with
  | zero => omega
  | succ f =>
    have hin : quoteJson s ++ L =
        '"' :: (s.data.flatMap escapeChar ++ '"' :: L) := by
      simp [quoteJson]
    rw [hin]
    have hws : skipWs ('"' :: (s.data.flatMap escapeChar ++ '"' :: L)) =
        '"' :: (s.data.flatMap escapeChar ++ '"' :: L) :=
      skipWs_cons_not_ws _ _ (by decide)
    have hlen : s.data.length < (s.data.flatMap escapeChar ++ '"' :: L).length + 1 := by
      have := length_le_length_flatMap_escapeChar s.data
      simp only [List.length_append, List.length_cons]
      omega
    simp only [parseValue, hws]
    rw [parseStringBody_escape s.data _ L hlen]
    rfl

/-- Lower bound on the serialised element list: at least one character
per element. -/
theorem length_jsonArrBody (S : List String) :
    S.length ≤ (jsonArrBody S).length := by
  induction S with
  | nil => simp [jsonArrBody]
  | cons s S' ih =>
    cases S' with
    | nil => simp [jsonArrBody, quoteJson]
    | cons s' S'' =>
      simp only [jsonArrBody, List.length_append, List.length_cons,
        List.length_cons] at *
      have : 0 < (quoteJson s).length := by simp [quoteJson]
      omega

/-- Parsing inverts the serialised element list of a non-empty string
array: the elements parser consumes it up to and including the closing
bracket and returns the strings in order. -/
theorem parseElems_jsonArrBody :
    ∀ (S : List String) (fuel : Nat) (L : List Char), S ≠ [] →
      S.length < fuel →
      parseElems fuel (jsonArrBody S ++ ']' :: L) =
        some (S.map JsValue.str, L) := by
  intro S
  induction S with
  | nil => intro fuel L h; exact absurd rfl h
  | cons s S' ih =>
    intro fuel L _ hf
    cases fuel with
    | zero => omega
    | succ f =>
      have hfpos : 0 < f := by
        simp only [List.length_cons] at hf
        omega
      cases S' with
      | nil =>
        have hbody : jsonArrBody [s] ++ ']' :: L = quoteJson s ++ ']' :: L := by
          simp [jsonArrBody]
        rw [hbody]
        simp only [parseElems]
        rw [parseValue_quoted s f (']' :: L) hfpos]
        have hws : skipWs (']' :: L) = ']' :: L :=
          skipWs_cons_not_ws _ _ (by decide)
        simp [hws]
      | cons s' S'' =>
        have hbody : jsonArrBody (s :: s' :: S'') ++ ']' :: L =
            quoteJson s ++ ',' :: (jsonArrBody (s' :: S'') ++ ']' :: L) := by
          simp [jsonArrBody]
        rw [hbody]
        simp only [parseElems]
        rw [parseValue_quoted s f (',' :: (jsonArrBody (s' :: S'') ++ ']' :: L))
          hfpos]
        have hws : skipWs (',' :: (jsonArrBody (s' :: S'') ++ ']' :: L)) =
            ',' :: (jsonArrBody (s' :: S'') ++ ']' :: L) :=
          skipWs_cons_not_ws _ _ (by decide)
        have hrec := ih f L (List.cons_ne_nil s' S'')
          (by simp only [List.length_cons] at hf ⊢; omega)
        simp [hws, hrec]

/-- Unfolding: parsing a value that starts with an opening bracket. -/
theorem parseValue_lbracket (f : Nat) (L : List Char) :
    parseValue (f + 1) ('[' :: L) =
      (if (skipWs L).head? = some ']' then some (.arr [], (skipWs L).tail)
       else (parseElems f (skipWs L)).map (fun p => (.arr p.1, p.2))) := rfl

/-- `JSON.parse` inverts `JSON.stringify` on string arrays: the parsed
value is the array of exactly the serialised strings, in order. -/
theorem jsonParse_stringify (S : List String) :
    jsonParse (jsonStringifyStrArr S) = some (.arr (S.map .str)) := by
  have hdata : (jsonStringifyStrArr S).data = '[' :: jsonArrBody S ++ [']'] :=
    rfl
  rw [jsonParse, hdata]
  cases S with
  | nil => rfl
  | cons s S' =>
    rw [List.cons_append]
    rw [show ('[' :: (jsonArrBody (s :: S') ++ [']'])).length + 1 =
        ((jsonArrBody (s :: S')).length + 2) + 1 by simp]
    rw [parseValue_lbracket]
    have hquote : jsonArrBody (s :: S') ++ [']'] =
        '"' :: (s.data.flatMap escapeChar ++ '"' ::
          ((match S' with
            | [] => ([] : List Char)
            | _ :: _ => ',' :: jsonArrBody S') ++ [']'])) := by
      cases S' <;> simp [jsonArrBody, quoteJson]
    have hhead : ∃ tail, jsonArrBody (s :: S') ++ [']'] = '"' :: tail :=
      ⟨_, hquote⟩
    obtain ⟨tail, htail⟩ := hhead
    have hws : skipWs (jsonArrBody (s :: S') ++ [']']) =
        jsonArrBody (s :: S') ++ [']'] := by
      rw [htail]
      exact skipWs_cons_not_ws _ _ (by decide)
    rw [hws]
    have hno : (jsonArrBody (s :: S') ++ [']']).head? ≠ some ']' := by
      rw [htail]
      simp
    rw [if_neg hno]
    have helems := parseElems_jsonArrBody (s :: S')
      ((jsonArrBody (s :: S')).length + 2) ([] : List Char)
      (List.cons_ne_nil s S')
      (by
        have := length_jsonArrBody (s :: S')
        simp only [List.length_cons] at this ⊢
        omega)
    have hassoc : jsonArrBody (s :: S') ++ [']'] =
        jsonArrBody (s :: S') ++ ']' :: ([] : List Char) := rfl
    rw [hassoc, helems]
    simp [skipWs]

/-! ## Claim theorems: bookmark persistence -/

/-- C3.  Persisting any bookmark set — including ids matching no catalog
record — and loading in a fresh session reproduces exactly that set: the
loaded value is the array of the same id strings, in order. -/
theorem bookmarks_roundtrip (S : List String) :
    loadBookmarks (persistBookmarks S) = .arr (S.map .str) := by
  have hne : jsonStringifyStrArr S ≠ "" := by
    intro h
    have hd := congrArg String.data h
    simp only [jsonStringifyStrArr] at hd
    exact List.cons_ne_nil _ _ hd
  simp only [persistBookmarks, loadBookmarks, hne, if_false,
    jsonParse_stringify]

/-- C5 (amended).  Loading is total and never fails: a missing or empty
slot and unparseable content load as the empty array, while any
well-formed JSON content is installed wholesale, without validating that
it is an array of strings. -/
theorem loadBookmarks_total :
    loadBookmarks none = .arr [] ∧
      ∀ s : String, loadBookmarks (some s) = (jsonParse s).getD (.arr []) := by
  refine ⟨rfl, fun s => ?_⟩
  by_cases h : s = ""
  · subst h
    rfl
  · simp only [loadBookmarks, h, if_false]
    cases jsonParse s <;> rfl

/-- C5 (counterexample).  The slot content `"true"` is not a well-formed
JSON array of strings, yet loading it does not yield the empty set: the
value `true` is installed, and the membership operation the application
then runs on it throws (models `true.includes(id)`, a `TypeError`). -/
theorem loadBookmarks_invalid_cex :
    loadBookmarks (some "true") ≠ JsValue.arr [] ∧
      jsIncludes (loadBookmarks (some "true")) "singleton" = none := by
  constructor
  · intro h
    exact nomatch h
  · rfl

/-! ## Navigation lemmas -/

/-- A selection absent from the list has no index. -/
theorem findIndex_not_mem (l : List String) (sel : String) (h : sel ∉ l) :
    findIndex l sel = none := by
  induction l with
  | nil => rfl
  | cons x xs ih =>
    have hx : x ≠ sel := fun hx => h (hx ▸ List.mem_cons_self x xs)
    have hxs : sel ∉ xs := fun hm => h (List.mem_cons_of_mem x hm)
    simp [findIndex, hx, ih hxs]

/-- The first occurrence after a selection-free prefix is found at the
prefix's length. -/
theorem findIndex_append (xs : List String) (sel : String) (h : sel ∉ xs)
    (ys : List String) :
    findIndex (xs ++ sel :: ys) sel = some xs.length := by
  induction xs with
  | nil => simp [findIndex]
  | cons x xs' ih =>
    have hx : x ≠ sel := fun hx => h (hx ▸ List.mem_cons_self x xs')
    have hxs : sel ∉ xs' := fun hm => h (List.mem_cons_of_mem x hm)
    simp [findIndex, hx, ih hxs]

/-- C7.  Navigation with wrap-around: `next` returns the id immediately
after the first occurrence of the selection, wraps to the first element
when the selection is last, and falls back to the first element when the
selection is absent; `prev` is symmetric, returning the id immediately
before the selection and wrapping to the last element when the selection
is first or absent.  In particular `next [A, B, C] C = A` and
`prev [A, B, C] A = C`. -/
theorem nav_wrap :
    (∀ (xs ys : List String) (sel y : String), sel ∉ xs →
        next (xs ++ sel :: y :: ys) sel = y) ∧
      (∀ (xs : List String) (sel : String), sel ∉ xs →
        next (xs ++ [sel]) sel = (xs ++ [sel]).headD sel) ∧
      (∀ (x sel : String) (xs : List String), sel ∉ x :: xs →
        next (x :: xs) sel = x) ∧
      (∀ (xs ys : List String) (sel y : String), sel ∉ xs ++ [y] →
        prev (xs ++ y :: sel :: ys) sel = y) ∧
      (∀ (x : String) (xs : List String),
        prev (x :: xs) x = (x :: xs).getLast (List.cons_ne_nil x xs)) ∧
      (∀ (x sel : String) (xs : List String), sel ∉ x :: xs →
        prev (x :: xs) sel = (x :: xs).getLast (List.cons_ne_nil x xs)) ∧
      (∀ A B C : String, A ≠ C → B ≠ C → next [A, B, C] C = A) ∧
      (∀ A B C : String, prev [A, B, C] A = C) := by
  have hnext_mid : ∀ (xs ys : List String) (sel y : String), sel ∉ xs →
      next (xs ++ sel :: y :: ys) sel = y := by
    intro xs ys sel y h
    have hidx := findIndex_append xs sel h (y :: ys)
    cases xs with
    | nil =>
      simp only [List.nil_append] at hidx ⊢
      simp [next, hidx, List.getD]
    | cons x xs' =>
      rw [List.cons_append]
      rw [List.cons_append] at hidx
      simp only [next, hidx]
      have hlt : x :: (xs' ++ sel :: y :: ys) =
          (x :: xs') ++ sel :: y :: ys := by simp
      have hlen : (x :: xs').length + 1 <
          (x :: (xs' ++ sel :: y :: ys)).length := by
        simp
      rw [if_pos hlen, hlt]
      rw [List.getD_eq_getElem?_getD, List.getElem?_append_right (by simp)]
      simp
  have hnext_last : ∀ (xs : List String) (sel : String), sel ∉ xs →
      next (xs ++ [sel]) sel = (xs ++ [sel]).headD sel := by
    intro xs sel h
    have hidx := findIndex_append xs sel h []
    cases xs with
    | nil =>
      simp only [List.nil_append] at hidx ⊢
      simp [next, hidx]
    | cons x xs' =>
      rw [List.cons_append]
      rw [List.cons_append] at hidx
      simp only [next, hidx]
      have hlen : ¬((x :: xs').length + 1 <
          (x :: (xs' ++ [sel])).length) := by
        simp
      rw [if_neg hlen]
      simp
  have hnext_none : ∀ (x sel : String) (xs : List String), sel ∉ x :: xs →
      next (x :: xs) sel = x := by
    intro x sel xs h
    simp [next, findIndex_not_mem _ _ h]
  have hprev_mid : ∀ (xs ys : List String) (sel y : String),
      sel ∉ xs ++ [y] → prev (xs ++ y :: sel :: ys) sel = y := by
    intro xs ys sel y h
    have hidx : findIndex ((xs ++ [y]) ++ sel :: ys) sel =
        some (xs ++ [y]).length := findIndex_append (xs ++ [y]) sel h ys
    rw [List.append_assoc] at hidx
    simp only [List.singleton_append, List.length_append,
      List.length_singleton] at hidx
    cases xs with
    | nil =>
      simp only [List.nil_append] at hidx ⊢
      simp only [prev, hidx, List.length_nil]
      norm_num
    | cons x xs' =>
      rw [List.cons_append]
      rw [List.cons_append] at hidx
      simp only [prev, hidx]
      have hne0 : ¬((x :: xs').length + 1 = 0) := by simp
      rw [if_neg hne0]
      have heq : (x :: xs').length + 1 - 1 = (x :: xs').length := by simp
      rw [heq]
      have hlt2 : x :: (xs' ++ y :: sel :: ys) =
          (x :: xs') ++ y :: sel :: ys := by simp
      rw [hlt2, List.getD_eq_getElem?_getD,
        List.getElem?_append_right (by simp)]
      simp
  have hprev_first : ∀ (x : String) (xs : List String),
      prev (x :: xs) x = (x :: xs).getLast (List.cons_ne_nil x xs) := by
    intro x xs
    simp [prev, findIndex]
  have hprev_none : ∀ (x sel : String) (xs : List String), sel ∉ x :: xs →
      prev (x :: xs) sel = (x :: xs).getLast (List.cons_ne_nil x xs) := by
    intro x sel xs h
    simp [prev, findIndex_not_mem _ _ h]
  refine ⟨hnext_mid, hnext_last, hnext_none, hprev_mid, hprev_first,
    hprev_none, ?_, ?_⟩
  · intro A B C hAC hBC
    have h := hnext_last [A, B] C (by simp [hAC, hBC, Ne.symm])
    simpa using h
  · intro A B C
    have h := hprev_first A [B, C]
    simpa [List.getLast] using h

/-- Witness for C7 at concrete inputs: stepping from the middle, wrapping
forward from the last element, and wrapping backward from the first. -/
theorem nav_wrap_witness :
    next ["a", "b", "c"] "a" = "b" ∧ next ["a", "b", "c"] "c" = "a" ∧
      prev ["a", "b", "c"] "a" = "c" := by
  refine ⟨?_, ?_, ?_⟩
  · have h := nav_wrap.1 [] ["c"] "a" "b" (by simp)
    simpa using h
  · exact nav_wrap.2.2.2.2.2.2.1 "a" "b" "c" (by decide) (by decide)
  · exact nav_wrap.2.2.2.2.2.2.2 "a" "b" "c"
